import Mathlib

/-!
Verification of the JuliaSets repository: a shallow embedding of the
escape-time evaluator (JuliaSet.c), the column-striped parallel fill engine
(JuliaSet.c / Project04_01.c), the pixel-to-plane coordinate transforms
(HelperFunctions.c) and the color policy (Drawing.c / Drawing.h), together
with theorems settling the frozen claims about them.

The C code computes with `double complex`; the embedding uses exact rational
arithmetic (pairs of rationals), the standard idealization of the floating
point reals.  The escape test `distanceFromOrigin(current) > 2.0`, whose C
form takes a square root, is embedded by the exactly equivalent squared
comparison `re*re + im*im > 4` (for nonnegative s, sqrt s > 2 iff s > 4),
keeping every definition executable.  The out-parameter
`int *stageEliminated` of isInJuliaSet is embedded as an explicit list of
the writes the call performs on that buffer.
-/

/-- Model of a C `double complex` value: real and imaginary part, with the
arithmetic idealized as exact rationals. -/
structure Cplx where
  re : ℚ
  im : ℚ
deriving DecidableEq, Repr

/-- JuliaSet.c, `f`: applies f(z) = z*z + C, with complex multiplication
written out componentwise, (a+bi)*(a+bi) = (a*a - b*b) + (a*b + b*a)i. -/
def f (Z C : Cplx) : Cplx :=
  ⟨Z.re * Z.re - Z.im * Z.im + C.re, Z.re * Z.im + Z.im * Z.re + C.im⟩

/-- JuliaSet.c, `distanceFromOrigin`, squared: the source computes
sqrt(re*re + im*im); we keep the radicand, and every comparison
`distanceFromOrigin Z > 2.0` of the source is embedded as
`distanceSqFromOrigin Z > 4`, which is exactly equivalent. -/
def distanceSqFromOrigin (Z : Cplx) : ℚ :=
  Z.re * Z.re + Z.im * Z.im

/-- JuliaSet.c, the `for (int i = 0; i < numIterations; i++)` loop body of
`isInJuliaSet`, with `fuel` the number of remaining iterations and `i` the
current loop index.  Returns the boolean result together with the list of
writes performed on the `stageEliminated` buffer. -/
def isInJuliaSetLoop (C prevZ currentZ : Cplx) (i : ℤ) (fuel : ℕ) :
    Bool × List ℤ :=
  if _h : fuel = 0 then (true, [])
  else
    let current := f currentZ C
    if distanceSqFromOrigin current > 4 then (false, [i])
    else if current = prevZ then (true, [])
    else isInJuliaSetLoop C current current (i + 1) (fuel - 1)
termination_by fuel
decreasing_by omega

/-- JuliaSet.c, `isInJuliaSet`: prevZ and currentZ both start at Z and the
loop runs for at most numIterations iterations (none when the `int` bound is
not positive).  The second component is the list of writes on the
`stageEliminated` buffer. -/
def isInJuliaSet (Z C : Cplx) (numIterations : ℤ) : Bool × List ℤ :=
  isInJuliaSetLoop C Z Z 0 numIterations.toNat

/-- Mathematical orbit of Z under f(z) = z*z + C: `orbit Z C n` is the value
after n applications of f.  Reference definition used to state what the
evaluator computes. -/
def orbit (Z C : Cplx) : ℕ → Cplx
  | 0 => Z
  | n + 1 => f (orbit Z C n) C

/-- The escape-time loop of `isInJuliaSet` with the fixed-point early exit
removed: the plain N-iteration escape-time test, used as the reference for
the refinement claim about the fixed-point shortcut. -/
def escapeLoop (C currentZ : Cplx) (i : ℤ) (fuel : ℕ) : Bool × List ℤ :=
  if _h : fuel = 0 then (true, [])
  else
    let current := f currentZ C
    if distanceSqFromOrigin current > 4 then (false, [i])
    else escapeLoop C current (i + 1) (fuel - 1)
termination_by fuel
decreasing_by omega

/-- The plain escape-time classifier without the fixed-point shortcut. -/
def escapeTimeOnly (Z C : Cplx) (numIterations : ℤ) : Bool × List ℤ :=
  escapeLoop C Z 0 numIterations.toNat

/-- HelperFunctions.c, `XTransform`: T(x) = planeWidth*((x / windowWidth) - 0.5) + centerX,
with the pixel index and window width converted to floating point (here: ℚ)
before dividing. -/
def XTransform (x : ℤ) (centerX planeWidth : ℚ) (windowWidth : ℤ) : ℚ :=
  planeWidth * ((x : ℚ) / (windowWidth : ℚ) - 1/2) + centerX

/-- HelperFunctions.c, `YTransform`: T(y) = planeHeight*(0.5 - (y / windowHeight)) + centerY. -/
def YTransform (y : ℤ) (centerY planeHeight : ℚ) (windowHeight : ℤ) : ℚ :=
  planeHeight * (1/2 - (y : ℚ) / (windowHeight : ℚ)) + centerY

/-- Model of SDL_Color: the four channel values as computed by the color
policy, before the store into the 8-bit struct fields (the claims under
check speak about these unclamped computed values). -/
structure Color where
  r : ℚ
  g : ℚ
  b : ℚ
  a : ℚ
deriving DecidableEq, Repr

/-- Drawing.h `RED_IN_SET`. -/
def RED_IN_SET : ℚ := 0

/-- Drawing.h `GREEN_IN_SET`. -/
def GREEN_IN_SET : ℚ := 0

/-- Drawing.h `BLUE_IN_SET`. -/
def BLUE_IN_SET : ℚ := 0

/-- Drawing.h `OPACITY_IN_SET`. -/
def OPACITY_IN_SET : ℚ := 255

/-- Drawing.h `RED_OUTOF_SET`. -/
def RED_OUTOF_SET : ℚ := 10

/-- Drawing.h `GREEN_OUTOF_SET`. -/
def GREEN_OUTOF_SET : ℚ := 10

/-- Drawing.h `BLUE_OUTOF_SET`. -/
def BLUE_OUTOF_SET : ℚ := 30

/-- Drawing.h `OPACITY_OUTOF_SET`. -/
def OPACITY_OUTOF_SET : ℚ := 255

/-- Drawing.h `RED_DELTA` (1.6 exactly, as a rational). -/
def RED_DELTA : ℚ := 1.6

/-- Drawing.h `GREEN_DELTA`. -/
def GREEN_DELTA : ℚ := 0.8

/-- Drawing.h `BLUE_DELTA`. -/
def BLUE_DELTA : ℚ := 1.4

/-- Drawing.h `OPACITY_DELTA`. -/
def OPACITY_DELTA : ℚ := 0

/-- Project04_01.c `NUM_ITERATIONS`: the iteration bound the program uses. -/
def NUM_ITERATIONS : ℤ := 100

/-- Drawing.c, `colorInSet`. -/
def colorInSet : Color :=
  ⟨RED_IN_SET, GREEN_IN_SET, BLUE_IN_SET, OPACITY_IN_SET⟩

/-- Drawing.c, `colorOutOfSet`: each channel is base + delta * stage. -/
def colorOutOfSet (stageEliminated : ℤ) : Color :=
  ⟨RED_OUTOF_SET + RED_DELTA * stageEliminated,
   GREEN_OUTOF_SET + GREEN_DELTA * stageEliminated,
   BLUE_OUTOF_SET + BLUE_DELTA * stageEliminated,
   OPACITY_OUTOF_SET + OPACITY_DELTA * stageEliminated⟩

/-- Unfolding of the evaluator loop when fuel remains. -/
lemma isInJuliaSetLoop_succ (C p c : Cplx) (i : ℤ) (fuel : ℕ) (h : fuel ≠ 0) :
    isInJuliaSetLoop C p c i fuel =
      (if distanceSqFromOrigin (f c C) > 4 then (false, [i])
       else if f c C = p then (true, [])
       else isInJuliaSetLoop C (f c C) (f c C) (i + 1) (fuel - 1)) := by
  rw [isInJuliaSetLoop]
  simp [h]

/-- Unfolding of the plain escape-time loop when fuel remains. -/
lemma escapeLoop_succ (C c : Cplx) (i : ℤ) (fuel : ℕ) (h : fuel ≠ 0) :
    escapeLoop C c i fuel =
      (if distanceSqFromOrigin (f c C) > 4 then (false, [i])
       else escapeLoop C (f c C) (i + 1) (fuel - 1)) := by
  rw [escapeLoop]
  simp [h]

/-- Every run of the evaluator loop returns either true with no buffer write,
or false with exactly one write, and the written stage lies in the index
range covered by the remaining fuel. -/
lemma isInJuliaSetLoop_cases (fuel : ℕ) :
    ∀ (C p c : Cplx) (i : ℤ),
      isInJuliaSetLoop C p c i fuel = (true, []) ∨
      ∃ s, isInJuliaSetLoop C p c i fuel = (false, [s]) ∧ i ≤ s ∧ s < i + fuel := by
  induction fuel with
  | zero =>
    intro C p c i
    left
    rw [isInJuliaSetLoop]
    simp
  | succ n ih =>
    intro C p c i
    rw [isInJuliaSetLoop_succ C p c i (n + 1) (by omega)]
    by_cases hesc : distanceSqFromOrigin (f c C) > 4
    · right
      exact ⟨i, by simp [hesc], le_refl i, by omega⟩
    · by_cases hfix : f c C = p
      · left
        rw [if_neg hesc, if_pos hfix]
      · rw [if_neg hesc, if_neg hfix]
        rcases ih C (f c C) (f c C) (i + 1) with h1 | ⟨s, hs, hs1, hs2⟩
        · left
          simp only [Nat.add_sub_cancel]
          exact h1
        · right
          refine ⟨s, ?_, by omega, ?_⟩
          · simp only [Nat.add_sub_cancel]
            exact hs
          · push_cast at hs2 ⊢
            omega

/-- orbit at 0. -/
lemma orbit_zero (Z C : Cplx) : orbit Z C 0 = Z := rfl

/-- orbit at a successor index. -/
lemma orbit_succ (Z C : Cplx) (n : ℕ) : orbit Z C (n + 1) = f (orbit Z C n) C := rfl

/-- Once the orbit repeats one value exactly, it is constant from there on. -/
lemma orbit_const_of_fix (Z C : Cplx) (k : ℕ)
    (h : orbit Z C (k + 1) = orbit Z C k) :
    ∀ m : ℕ, orbit Z C (k + m) = orbit Z C k := by
  intro m
  induction m with
  | zero => rfl
  | succ j ih =>
    have harith : k + (j + 1) = (k + j) + 1 := by omega
    rw [harith, orbit_succ, ih, ← orbit_succ, h]

/-- If from index k on, every iterate up to the fuel bound stays inside the
escape radius and never exactly repeats, the evaluator loop started at the
k-th iterate returns true with no buffer write. -/
lemma isInJuliaSetLoop_orbit_true (Z C : Cplx) (fuel : ℕ) :
    ∀ k : ℕ,
      (∀ j : ℕ, k ≤ j → j < k + fuel →
        distanceSqFromOrigin (orbit Z C (j + 1)) ≤ 4 ∧
          orbit Z C (j + 1) ≠ orbit Z C j) →
      isInJuliaSetLoop C (orbit Z C k) (orbit Z C k) (k : ℤ) fuel = (true, []) := by
  induction fuel with
  | zero =>
    intro k _
    rw [isInJuliaSetLoop]
    simp
  | succ n ih =>
    intro k hgood
    have hk := hgood k (le_refl k) (by omega)
    rw [isInJuliaSetLoop_succ _ _ _ _ _ (by omega), ← orbit_succ,
      if_neg (not_lt.mpr hk.1), if_neg hk.2]
    simp only [Nat.add_sub_cancel]
    have := ih (k + 1) (fun j hj1 hj2 => hgood j (by omega) (by omega))
    push_cast at this ⊢
    exact this

/-- If the iterate at index i0 (within the fuel bound) escapes and no iterate
from k up to i0 does, the evaluator loop started at the k-th iterate returns
false and writes exactly the stage i0. -/
lemma isInJuliaSetLoop_orbit_false (Z C : Cplx) (fuel : ℕ) :
    ∀ k i0 : ℕ, k ≤ i0 → i0 < k + fuel →
      distanceSqFromOrigin (orbit Z C (i0 + 1)) > 4 →
      (∀ j : ℕ, k ≤ j → j < i0 → distanceSqFromOrigin (orbit Z C (j + 1)) ≤ 4) →
      isInJuliaSetLoop C (orbit Z C k) (orbit Z C k) (k : ℤ) fuel =
        (false, [(i0 : ℤ)]) := by
  induction fuel with
  | zero =>
    intro k i0 h1 h2 _ _
    omega
  | succ n ih =>
    intro k i0 hki hlt hesc hpre
    rw [isInJuliaSetLoop_succ _ _ _ _ _ (by omega), ← orbit_succ]
    by_cases hk : k = i0
    · subst hk
      rw [if_pos hesc]
    · have hkk : k < i0 := by omega
      have hle := hpre k (le_refl k) hkk
      have hne : orbit Z C (k + 1) ≠ orbit Z C k := by
        intro heq
        have hconst := orbit_const_of_fix Z C k heq (i0 + 1 - k)
        have harith : k + (i0 + 1 - k) = i0 + 1 := by omega
        rw [harith] at hconst
        rw [hconst, ← heq] at hesc
        exact absurd hesc (not_lt.mpr hle)
      rw [if_neg (not_lt.mpr hle), if_neg hne]
      simp only [Nat.add_sub_cancel]
      have := ih (k + 1) i0 (by omega) (by omega) hesc
        (fun j hj1 hj2 => hpre j (by omega) hj2)
      push_cast at this ⊢
      exact this

/-- C1: for every complex point Z, constant C and iteration bound N >= 1,
isInJuliaSet iterates current <- current^2 + C from current = Z; if the
iterate produced at the (0-based) iteration i0 is the first whose distance
from the origin exceeds 2.0 (squared: exceeds 4), the evaluator returns
false (not in the set) and writes exactly the stage i0, and if all N
iterations complete with no escape and no exact fixed point it returns true
(in the set) with no write. -/
theorem isInJuliaSet_escape_time_spec (Z C : Cplx) (N : ℤ) (_hN : 1 ≤ N) :
    (∀ i0 : ℕ, i0 < N.toNat →
       distanceSqFromOrigin (orbit Z C (i0 + 1)) > 4 →
       (∀ j : ℕ, j < i0 → distanceSqFromOrigin (orbit Z C (j + 1)) ≤ 4) →
       isInJuliaSet Z C N = (false, [(i0 : ℤ)])) ∧
    ((∀ i : ℕ, i < N.toNat →
       distanceSqFromOrigin (orbit Z C (i + 1)) ≤ 4 ∧
         orbit Z C (i + 1) ≠ orbit Z C i) →
       isInJuliaSet Z C N = (true, [])) := by
  constructor
  · intro i0 h1 h2 h3
    have := isInJuliaSetLoop_orbit_false Z C N.toNat 0 i0 (by omega) (by omega)
      h2 (fun j _ hj => h3 j hj)
    rw [orbit_zero] at this
    rw [isInJuliaSet]
    simpa using this
  · intro hgood
    have := isInJuliaSetLoop_orbit_true Z C N.toNat 0
      (fun j _ hj => hgood j (by omega))
    rw [orbit_zero] at this
    rw [isInJuliaSet]
    simpa using this

/-- Witness for C1, both parts: Z = 3 escapes at stage 0 for C = 0 and N = 1,
and Z = i (which satisfies neither escape nor exact repetition within one
iteration of C = 1) is classified in the set for N = 1. -/
theorem isInJuliaSet_escape_time_spec_witness :
    (1 : ℤ) ≤ 1 ∧
    isInJuliaSet ⟨3, 0⟩ ⟨0, 0⟩ 1 = (false, [(0 : ℤ)]) ∧
    isInJuliaSet ⟨0, 1⟩ ⟨1, 0⟩ 1 = (true, []) := by
  refine ⟨le_refl 1, ?_, ?_⟩
  · exact (isInJuliaSet_escape_time_spec ⟨3, 0⟩ ⟨0, 0⟩ 1 (le_refl 1)).1 0
      (by norm_num)
      (by rw [orbit_succ, orbit_zero]; norm_num [f, distanceSqFromOrigin])
      (by intro j hj; omega)
  · refine (isInJuliaSet_escape_time_spec ⟨0, 1⟩ ⟨1, 0⟩ 1 (le_refl 1)).2 ?_
    intro i hi
    have hi0 : i = 0 := by norm_num at hi; omega
    subst hi0
    rw [orbit_succ, orbit_zero]
    constructor
    · norm_num [f, distanceSqFromOrigin]
    · intro h
      rw [show f ⟨0, 1⟩ ⟨1, 0⟩ = (⟨0, 0⟩ : Cplx) by norm_num [f]] at h
      simp [Cplx.mk.injEq] at h

/-- C7: every Z whose distance from the origin exceeds 2 (squared: exceeds
4), with C = 0 and any bound N >= 1, is classified not in the set with
elimination stage 0, because the first iterate Z^2 already exceeds the
escape radius. -/
theorem isInJuliaSet_known_escape (Z : Cplx) (N : ℤ)
    (hZ : distanceSqFromOrigin Z > 4) (hN : 1 ≤ N) :
    isInJuliaSet Z ⟨0, 0⟩ N = (false, [0]) := by
  have hsq : distanceSqFromOrigin (f Z ⟨0, 0⟩) =
      distanceSqFromOrigin Z * distanceSqFromOrigin Z := by
    simp only [f, distanceSqFromOrigin]
    ring
  have hgt : distanceSqFromOrigin (f Z ⟨0, 0⟩) > 4 := by
    rw [hsq]
    nlinarith
  rw [isInJuliaSet, isInJuliaSetLoop_succ _ _ _ _ _ (by omega), if_pos hgt]

/-- Witness for C7 at Z = 2 + i (squared distance 5 > 4), N = 1. -/
theorem isInJuliaSet_known_escape_witness :
    distanceSqFromOrigin ⟨2, 1⟩ > 4 ∧ (1 : ℤ) ≤ 1 ∧
    isInJuliaSet ⟨2, 1⟩ ⟨0, 0⟩ 1 = (false, [0]) :=
  ⟨by norm_num [distanceSqFromOrigin], le_refl 1,
   isInJuliaSet_known_escape ⟨2, 1⟩ 1 (by norm_num [distanceSqFromOrigin])
     (le_refl 1)⟩

/-- C8: the evaluator writes the stageEliminated buffer exactly when it
returns false, and then writes exactly once; whenever it returns true the
buffer is untouched. -/
theorem isInJuliaSet_write_frame (Z C : Cplx) (numIterations : ℤ) :
    ((isInJuliaSet Z C numIterations).1 = false ↔
      (isInJuliaSet Z C numIterations).2.length = 1) ∧
    ((isInJuliaSet Z C numIterations).1 = true →
      (isInJuliaSet Z C numIterations).2 = []) := by
  rw [isInJuliaSet]
  rcases isInJuliaSetLoop_cases numIterations.toNat C Z Z 0 with h | ⟨s, hs, _, _⟩
  · rw [h]
    simp
  · rw [hs]
    simp

/-- C9: with a non-positive iteration bound (outside the documented domain)
the evaluator runs zero iterations, returns true, and writes nothing. -/
theorem isInJuliaSet_nonpositive_bound (Z C : Cplx) (numIterations : ℤ)
    (h : numIterations ≤ 0) :
    isInJuliaSet Z C numIterations = (true, []) := by
  rw [isInJuliaSet, Int.toNat_of_nonpos h, isInJuliaSetLoop]
  simp

/-- Witness for C9 at Z = 5 + 5i, C = 1 + i, bound 0. -/
theorem isInJuliaSet_nonpositive_bound_witness :
    (0 : ℤ) ≤ 0 ∧ isInJuliaSet ⟨5, 5⟩ ⟨1, 1⟩ 0 = (true, []) :=
  ⟨le_refl 0, isInJuliaSet_nonpositive_bound ⟨5, 5⟩ ⟨1, 1⟩ 0 (le_refl 0)⟩

/-- On an exact fixed point inside the escape radius, the plain escape-time
loop never escapes and returns true with no write. -/
lemma escapeLoop_fixed (C x : Cplx) (hfix : f x C = x)
    (hd : ¬ distanceSqFromOrigin x > 4) :
    ∀ (i : ℤ) (fuel : ℕ), escapeLoop C x i fuel = (true, []) := by
  intro i fuel
  induction fuel generalizing i with
  | zero =>
    rw [escapeLoop]
    simp
  | succ n ih =>
    rw [escapeLoop_succ _ _ _ _ (by omega), hfix, if_neg hd]
    simp only [Nat.add_sub_cancel]
    exact ih (i + 1)

/-- The boolean classification of the evaluator loop agrees with the plain
escape-time loop without the fixed-point shortcut. -/
lemma isInJuliaSetLoop_bool_eq_escapeLoop (fuel : ℕ) :
    ∀ (C c : Cplx) (i : ℤ),
      (isInJuliaSetLoop C c c i fuel).1 = (escapeLoop C c i fuel).1 := by
  induction fuel with
  | zero =>
    intro C c i
    rw [isInJuliaSetLoop, escapeLoop]
    simp
  | succ n ih =>
    intro C c i
    rw [isInJuliaSetLoop_succ _ _ _ _ _ (by omega),
      escapeLoop_succ _ _ _ _ (by omega)]
    by_cases hesc : distanceSqFromOrigin (f c C) > 4
    · rw [if_pos hesc, if_pos hesc]
    · rw [if_neg hesc, if_neg hesc]
      by_cases hfix : f c C = c
      · rw [if_pos hfix]
        rw [hfix] at hesc ⊢
        rw [escapeLoop_fixed C c hfix hesc (i + 1)]
      · rw [if_neg hfix]
        simp only [Nat.add_sub_cancel]
        exact ih C (f c C) (i + 1)

/-- C4: the fixed-point early exit never changes the classification: for
every Z, C and N >= 1 the evaluator returns the same in-set/not-in-set
answer as the same N-iteration escape-time loop without that check. -/
theorem isInJuliaSet_fixed_point_exit_refines (Z C : Cplx) (N : ℤ)
    (_hN : 1 ≤ N) :
    (isInJuliaSet Z C N).1 = (escapeTimeOnly Z C N).1 := by
  rw [isInJuliaSet, escapeTimeOnly]
  exact isInJuliaSetLoop_bool_eq_escapeLoop N.toNat C Z 0

/-- Witness for C4 at Z = 0, C = 0, N = 1 (fixed-point orbit). -/
theorem isInJuliaSet_fixed_point_exit_refines_witness :
    (1 : ℤ) ≤ 1 ∧
    (isInJuliaSet ⟨0, 0⟩ ⟨0, 0⟩ 1).1 = (escapeTimeOnly ⟨0, 0⟩ ⟨0, 0⟩ 1).1 :=
  ⟨le_refl 1, isInJuliaSet_fixed_point_exit_refines ⟨0, 0⟩ ⟨0, 0⟩ 1 (le_refl 1)⟩

/-- C5: XTransform and YTransform compute exactly the documented affine
formulas; pixel (0, 0) maps to (centerX - planeWidth/2, centerY + planeHeight/2),
and when the window dimensions are even (so that the center pixel
(W/2, H/2) is an exact pixel) the center pixel maps exactly to
(centerX, centerY); in the exact-rational model the tolerance is zero. -/
theorem transform_mapping_spec (x y : ℤ) (cx cy pw ph : ℚ) (W H : ℤ)
    (hW : 0 < W) (hH : 0 < H) :
    XTransform x cx pw W = pw * ((x : ℚ) / (W : ℚ) - 1/2) + cx ∧
    YTransform y cy ph H = ph * (1/2 - (y : ℚ) / (H : ℚ)) + cy ∧
    XTransform 0 cx pw W = cx - pw / 2 ∧
    YTransform 0 cy ph H = cy + ph / 2 ∧
    ((2 : ℤ) ∣ W → XTransform (W / 2) cx pw W = cx) ∧
    ((2 : ℤ) ∣ H → YTransform (H / 2) cy ph H = cy) := by
  refine ⟨rfl, rfl, ?_, ?_, ?_, ?_⟩
  · rw [XTransform]
    push_cast
    ring
  · rw [YTransform]
    push_cast
    ring
  · rintro ⟨k, rfl⟩
    have hk : (0 : ℤ) < k := by omega
    have hkq : ((k : ℚ)) ≠ 0 := Int.cast_ne_zero.mpr (by omega)
    rw [show (2 * k) / 2 = k from by omega, XTransform]
    push_cast
    field_simp
    ring
  · rintro ⟨k, rfl⟩
    have hk : (0 : ℤ) < k := by omega
    have hkq : ((k : ℚ)) ≠ 0 := Int.cast_ne_zero.mpr (by omega)
    rw [show (2 * k) / 2 = k from by omega, YTransform]
    push_cast
    field_simp

/-- Witness for C5 at a 2 x 2 window centered at (3, 5) with plane extents
8 x 6: corner pixel (0, 0) maps to (3 - 8/2, 5 + 6/2) and the center pixel
(1, 1) maps exactly to (3, 5). -/
theorem transform_mapping_spec_witness :
    (0 : ℤ) < 2 ∧
    XTransform 0 3 8 2 = 3 - 8 / 2 ∧
    YTransform 0 5 6 2 = 5 + 6 / 2 ∧
    XTransform (2 / 2) 3 8 2 = 3 ∧
    YTransform (2 / 2) 5 6 2 = 5 := by
  have h := transform_mapping_spec 1 1 3 5 8 6 2 2 (by norm_num) (by norm_num)
  exact ⟨by norm_num, h.2.2.1, h.2.2.2.1, h.2.2.2.2.1 (by norm_num),
    h.2.2.2.2.2 (by norm_num)⟩

/-- C6: colorOutOfSet returns exactly the unclamped channel values
base + delta * stage for the per-channel constants of Drawing.h, and for
stages s1 < s2 every channel is ordered with the sign of its delta: the
red, green and blue channels (positive delta) are non-decreasing and the
opacity channel (zero delta) is unchanged. -/
theorem colorOutOfSet_gradient_spec (s s1 s2 : ℤ) (_hs : 0 ≤ s)
    (h12 : s1 < s2) :
    colorOutOfSet s =
      ⟨RED_OUTOF_SET + RED_DELTA * s, GREEN_OUTOF_SET + GREEN_DELTA * s,
       BLUE_OUTOF_SET + BLUE_DELTA * s,
       OPACITY_OUTOF_SET + OPACITY_DELTA * s⟩ ∧
    (colorOutOfSet s1).r ≤ (colorOutOfSet s2).r ∧
    (colorOutOfSet s1).g ≤ (colorOutOfSet s2).g ∧
    (colorOutOfSet s1).b ≤ (colorOutOfSet s2).b ∧
    (colorOutOfSet s1).a = (colorOutOfSet s2).a := by
  have hc : (s1 : ℚ) ≤ (s2 : ℚ) := by exact_mod_cast h12.le
  refine ⟨rfl, ?_, ?_, ?_, ?_⟩ <;>
    simp only [colorOutOfSet, RED_OUTOF_SET, RED_DELTA, GREEN_OUTOF_SET,
      GREEN_DELTA, BLUE_OUTOF_SET, BLUE_DELTA, OPACITY_OUTOF_SET,
      OPACITY_DELTA] <;>
    norm_num <;>
    linarith

/-- Witness for C6 at stage 0 and the stage pair 0 < 1. -/
theorem colorOutOfSet_gradient_spec_witness :
    (0 : ℤ) ≤ 0 ∧ (0 : ℤ) < 1 ∧
    colorOutOfSet 0 =
      ⟨RED_OUTOF_SET + RED_DELTA * ((0 : ℤ) : ℚ),
       GREEN_OUTOF_SET + GREEN_DELTA * ((0 : ℤ) : ℚ),
       BLUE_OUTOF_SET + BLUE_DELTA * ((0 : ℤ) : ℚ),
       OPACITY_OUTOF_SET + OPACITY_DELTA * ((0 : ℤ) : ℚ)⟩ ∧
    (colorOutOfSet 0).r ≤ (colorOutOfSet 1).r ∧
    (colorOutOfSet 0).a = (colorOutOfSet 1).a := by
  have h := colorOutOfSet_gradient_spec 0 0 1 (le_refl 0) (by norm_num)
  exact ⟨le_refl 0, by norm_num, h.1, h.2.1, h.2.2.2.2⟩

/-- C10: with the shipped constants and the program's fixed bound
NUM_ITERATIONS = 100, every stage the evaluator can ever write satisfies
0 <= s <= 99, and every unclamped channel value base + delta * s lies in
[0, 255], so the channel arithmetic never leaves the byte range before the
8-bit store. -/
theorem reachable_stage_channel_bounds (Z C : Cplx) (s : ℤ)
    (hs : s ∈ (isInJuliaSet Z C NUM_ITERATIONS).2) :
    (0 ≤ s ∧ s ≤ 99) ∧
    (0 ≤ RED_OUTOF_SET + RED_DELTA * s ∧ RED_OUTOF_SET + RED_DELTA * s ≤ 255) ∧
    (0 ≤ GREEN_OUTOF_SET + GREEN_DELTA * s ∧
      GREEN_OUTOF_SET + GREEN_DELTA * s ≤ 255) ∧
    (0 ≤ BLUE_OUTOF_SET + BLUE_DELTA * s ∧
      BLUE_OUTOF_SET + BLUE_DELTA * s ≤ 255) ∧
    (0 ≤ OPACITY_OUTOF_SET + OPACITY_DELTA * s ∧
      OPACITY_OUTOF_SET + OPACITY_DELTA * s ≤ 255) := by
  have hbound : 0 ≤ s ∧ s ≤ 99 := by
    rcases isInJuliaSetLoop_cases NUM_ITERATIONS.toNat C Z Z 0 with
      h | ⟨t, ht, ht1, ht2⟩
    · rw [isInJuliaSet, h] at hs
      simp at hs
    · rw [isInJuliaSet, ht] at hs
      simp at hs
      subst hs
      norm_num [NUM_ITERATIONS] at ht2
      omega
  have h0 : (0 : ℚ) ≤ (s : ℚ) := by exact_mod_cast hbound.1
  have h99 : (s : ℚ) ≤ 99 := by exact_mod_cast hbound.2
  refine ⟨hbound, ?_, ?_, ?_, ?_⟩ <;>
    simp only [RED_OUTOF_SET, RED_DELTA, GREEN_OUTOF_SET, GREEN_DELTA,
      BLUE_OUTOF_SET, BLUE_DELTA, OPACITY_OUTOF_SET, OPACITY_DELTA] <;>
    norm_num <;>
    constructor <;>
    linarith

/-- Witness for C10: Z = 3 with C = 0 escapes at stage 0 under the shipped
bound of 100 iterations. -/
theorem reachable_stage_channel_bounds_witness :
    (0 : ℤ) ∈ (isInJuliaSet ⟨3, 0⟩ ⟨0, 0⟩ NUM_ITERATIONS).2 ∧
    ((0 : ℤ) ≤ 0 ∧ (0 : ℤ) ≤ 99) ∧
    (0 ≤ RED_OUTOF_SET + RED_DELTA * ((0 : ℤ) : ℚ) ∧
      RED_OUTOF_SET + RED_DELTA * ((0 : ℤ) : ℚ) ≤ 255) := by
  have hmem : (0 : ℤ) ∈ (isInJuliaSet ⟨3, 0⟩ ⟨0, 0⟩ NUM_ITERATIONS).2 := by
    rw [show (isInJuliaSet ⟨3, 0⟩ ⟨0, 0⟩ NUM_ITERATIONS).2 = [0] from by
      rw [NUM_ITERATIONS, isInJuliaSet, isInJuliaSetLoop]
      norm_num [f, distanceSqFromOrigin]]
    simp
  have h := reachable_stage_channel_bounds ⟨3, 0⟩ ⟨0, 0⟩ 0 hmem
  exact ⟨hmem, h.1, h.2.1⟩

/-- JuliaSet.c, the column loop header of fillJuliaSet:
`for (int x = threadID; x < windowWidth; x += numberOfThreads)`.  The list of
column indices visited starting from x, bounded by the fuel (the number of
loop iterations can never exceed windowWidth when the start is nonnegative
and the step is at least 1, so the fuel is instantiated with
windowWidth.toNat). -/
def colsFrom (x windowWidth step : ℤ) (fuel : ℕ) : List ℤ :=
  if _h : fuel = 0 then []
  else if x < windowWidth then
    x :: colsFrom (x + step) windowWidth step (fuel - 1)
  else []
termination_by fuel
decreasing_by omega

/-- Net effect of a list of buffer writes on the local stageEliminated
variable of fillJuliaSet (a later write overwrites an earlier one). -/
def stageAfter (stage : ℤ) (writes : List ℤ) : ℤ :=
  writes.foldl (fun _ s => s) stage

/-- JuliaSet.c, the body of the double loop of fillJuliaSet: walks the pixel
sequence in iteration order, threads the local variable stageEliminated
through the isInJuliaSet calls, and records the colorMap writes
(x, y, color) in order. -/
def fillLoop (centerX centerY planeWidth planeHeight : ℚ)
    (windowWidth windowHeight numIterations : ℤ) (C : Cplx) :
    List (ℤ × ℤ) → ℤ → List (ℤ × ℤ × Color)
  | [], _ => []
  | (x, y) :: rest, stageEliminated =>
    let Z : Cplx := ⟨XTransform x centerX planeWidth windowWidth,
                     YTransform y centerY planeHeight windowHeight⟩
    let r := isInJuliaSet Z C numIterations
    let stage1 := stageAfter stageEliminated r.2
    (x, y, if r.1 then colorInSet else colorOutOfSet stage1) ::
      fillLoop centerX centerY planeWidth planeHeight windowWidth windowHeight
        numIterations C rest stage1

/-- The pixel visit order of one fillJuliaSet worker: columns
threadID, threadID + numberOfThreads, ... below windowWidth (outer loop),
and rows 0 .. windowHeight - 1 (inner loop). -/
def pixelList (windowWidth windowHeight numberOfThreads threadID : ℤ) :
    List (ℤ × ℤ) :=
  (colsFrom threadID windowWidth numberOfThreads windowWidth.toNat).flatMap
    (fun x => (List.range windowHeight.toNat).map
      (fun (y : ℕ) => (x, (y : ℤ))))

/-- JuliaSet.c, fillJuliaSet for one worker: the ordered list of colorMap
writes (x, y, color) the worker with the given threadID performs, with the
local stageEliminated variable initialized to -1. -/
def fillJuliaSet (centerX centerY planeWidth planeHeight : ℚ)
    (windowWidth windowHeight numIterations : ℤ) (C : Cplx)
    (numberOfThreads threadID : ℤ) : List (ℤ × ℤ × Color) :=
  fillLoop centerX centerY planeWidth planeHeight windowWidth windowHeight
    numIterations C
    (pixelList windowWidth windowHeight numberOfThreads threadID) (-1)

/-- The color the fill engine assigns to pixel (x, y): colorInSet if the
evaluator accepts the mapped plane point, otherwise colorOutOfSet at the
stage the evaluator just wrote. -/
def pixelColor (centerX centerY planeWidth planeHeight : ℚ)
    (windowWidth windowHeight numIterations : ℤ) (C : Cplx) (x y : ℤ) :
    Color :=
  let Z : Cplx := ⟨XTransform x centerX planeWidth windowWidth,
                   YTransform y centerY planeHeight windowHeight⟩
  let r := isInJuliaSet Z C numIterations
  if r.1 then colorInSet else colorOutOfSet (stageAfter (-1) r.2)

/-- Project04_01.c, main: all colorMap writes of a fill with
numberOfThreads workers, worker threadID running
fillJuliaSet(..., numberOfThreads, threadID).  The workers write disjoint
cells, so the concatenation order is immaterial for the resulting grid. -/
def allWrites (centerX centerY planeWidth planeHeight : ℚ)
    (windowWidth windowHeight numIterations : ℤ) (C : Cplx)
    (numberOfThreads : ℤ) : List (ℤ × ℤ × Color) :=
  (List.range numberOfThreads.toNat).flatMap
    (fun threadID => fillJuliaSet centerX centerY planeWidth planeHeight
      windowWidth windowHeight numIterations C numberOfThreads
      ((threadID : ℕ) : ℤ))

/-- The content of the output grid cell (x, y) after a fill with
numberOfThreads workers: the color of the unique write to that cell, if
any. -/
def gridAt (centerX centerY planeWidth planeHeight : ℚ)
    (windowWidth windowHeight numIterations : ℤ) (C : Cplx)
    (numberOfThreads x y : ℤ) : Option Color :=
  ((allWrites centerX centerY planeWidth planeHeight windowWidth windowHeight
      numIterations C numberOfThreads).find?
    (fun w => w.1 == x && w.2.1 == y)).map (fun w => w.2.2)

/-- Unfolding of the column loop when fuel remains. -/
lemma colsFrom_succ (x windowWidth step : ℤ) (fuel : ℕ) (h : fuel ≠ 0) :
    colsFrom x windowWidth step fuel =
      if x < windowWidth then
        x :: colsFrom (x + step) windowWidth step (fuel - 1)
      else [] := by
  rw [colsFrom]
  simp [h]

/-- The columns visited from start are exactly those below windowWidth that
are reachable from start in full steps, provided the fuel covers the
distance to the bound. -/
lemma mem_colsFrom (step : ℤ) (hstep : 1 ≤ step) :
    ∀ (fuel : ℕ) (start W z : ℤ), W - start ≤ (fuel : ℤ) →
      (z ∈ colsFrom start W step fuel ↔
        start ≤ z ∧ z < W ∧ step ∣ z - start) := by
  intro fuel
  induction fuel with
  | zero =>
    intro start W z hf
    constructor
    · intro hz
      rw [colsFrom] at hz
      simp at hz
    · rintro ⟨h1, h2, _⟩
      exfalso
      push_cast at hf
      omega
  | succ n ih =>
    intro start W z hf
    rw [colsFrom_succ _ _ _ _ (by omega)]
    simp only [Nat.add_sub_cancel]
    by_cases hlt : start < W
    · rw [if_pos hlt, List.mem_cons,
        ih (start + step) W z (by push_cast at hf ⊢; omega)]
      constructor
      · rintro (rfl | ⟨h1, h2, h3⟩)
        · exact ⟨le_refl z, hlt, ⟨0, by ring⟩⟩
        · refine ⟨by omega, h2, ?_⟩
          obtain ⟨m, hm⟩ := h3
          exact ⟨m + 1, by rw [mul_add, mul_one, ← hm]; ring⟩
      · rintro ⟨h1, h2, h3⟩
        rcases eq_or_lt_of_le h1 with heq | hlt2
        · left
          exact heq.symm
        · right
          obtain ⟨m, hm⟩ := h3
          have hm1 : 1 ≤ m := by
            by_contra hc
            push_neg at hc
            have hm0 : m ≤ 0 := by omega
            have : step * m ≤ 0 := mul_nonpos_iff.mpr (Or.inl ⟨by omega, hm0⟩)
            omega
          have hstep_le : step * 1 ≤ step * m :=
            mul_le_mul_of_nonneg_left hm1 (by omega)
          rw [mul_one] at hstep_le
          refine ⟨by omega, h2, ⟨m - 1, ?_⟩⟩
          rw [mul_sub, mul_one, ← hm]
          ring
    · rw [if_neg hlt]
      constructor
      · intro hz
        simp at hz
      · rintro ⟨h1, h2, _⟩
        exfalso
        omega

/-- The visited column list never repeats a column. -/
lemma colsFrom_nodup (step : ℤ) (hstep : 1 ≤ step) :
    ∀ (fuel : ℕ) (start W : ℤ), W - start ≤ (fuel : ℤ) →
      (colsFrom start W step fuel).Nodup := by
  intro fuel
  induction fuel with
  | zero =>
    intro start W _
    rw [colsFrom]
    simp
  | succ n ih =>
    intro start W hf
    rw [colsFrom_succ _ _ _ _ (by omega)]
    simp only [Nat.add_sub_cancel]
    by_cases hlt : start < W
    · rw [if_pos hlt]
      refine List.nodup_cons.mpr
        ⟨?_, ih (start + step) W (by push_cast at hf ⊢; omega)⟩
      intro hmem
      rw [mem_colsFrom step hstep n (start + step) W start
        (by push_cast at hf ⊢; omega)] at hmem
      omega
    · rw [if_neg hlt]
      exact List.nodup_nil

/-- Occurrence count of a column in the visited column list. -/
lemma count_colsFrom (step : ℤ) (hstep : 1 ≤ step) (fuel : ℕ)
    (start W z : ℤ) (hf : W - start ≤ (fuel : ℤ)) :
    (colsFrom start W step fuel).count z =
      if start ≤ z ∧ z < W ∧ step ∣ z - start then 1 else 0 := by
  by_cases hmem : z ∈ colsFrom start W step fuel
  · rw [List.count_eq_one_of_mem (colsFrom_nodup step hstep fuel start W hf)
      hmem, if_pos ((mem_colsFrom step hstep fuel start W z hf).mp hmem)]
  · rw [List.count_eq_zero_of_not_mem hmem, if_neg]
    intro hc
    exact hmem ((mem_colsFrom step hstep fuel start W z hf).mpr hc)

/-- Counting the rows equal to a given integer in the row range. -/
lemma countP_range_intEq (m : ℕ) (y : ℤ) :
    (List.range m).countP (fun yy => ((yy : ℕ) : ℤ) == y) =
      if 0 ≤ y ∧ y < (m : ℤ) then 1 else 0 := by
  induction m with
  | zero =>
    rw [List.range_zero]
    simp only [List.countP_nil]
    rw [if_neg]
    push_cast
    rintro ⟨h1, h2⟩
    omega
  | succ n ih =>
    rw [List.range_succ, List.countP_append, ih, List.countP_singleton]
    simp only [beq_iff_eq]
    push_cast
    split_ifs <;> omega

/-- The evaluator returns either true with no write or false with exactly
one write. -/
lemma isInJuliaSet_cases (Z C : Cplx) (N : ℤ) :
    isInJuliaSet Z C N = (true, []) ∨
      ∃ s, isInJuliaSet Z C N = (false, [s]) := by
  rcases isInJuliaSetLoop_cases N.toNat C Z Z 0 with h | ⟨s, hs, _, _⟩
  · left
    rw [isInJuliaSet]
    exact h
  · right
    exact ⟨s, by rw [isInJuliaSet]; exact hs⟩

/-- Unfolding of the fill loop on a pixel. -/
lemma fillLoop_cons (centerX centerY planeWidth planeHeight : ℚ)
    (windowWidth windowHeight numIterations : ℤ) (C : Cplx) (x y : ℤ)
    (rest : List (ℤ × ℤ)) (stage : ℤ) :
    fillLoop centerX centerY planeWidth planeHeight windowWidth windowHeight
      numIterations C ((x, y) :: rest) stage =
      (x, y,
        if (isInJuliaSet
            ⟨XTransform x centerX planeWidth windowWidth,
             YTransform y centerY planeHeight windowHeight⟩ C numIterations).1
        then colorInSet
        else colorOutOfSet (stageAfter stage (isInJuliaSet
            ⟨XTransform x centerX planeWidth windowWidth,
             YTransform y centerY planeHeight windowHeight⟩ C
            numIterations).2)) ::
      fillLoop centerX centerY planeWidth planeHeight windowWidth windowHeight
        numIterations C rest
        (stageAfter stage (isInJuliaSet
            ⟨XTransform x centerX planeWidth windowWidth,
             YTransform y centerY planeHeight windowHeight⟩ C
            numIterations).2) := rfl

/-- The stageEliminated threading does not influence the colors a worker
writes: the fill loop is the pure per-pixel color map.  When the evaluator
returns true the stage is unused, and when it returns false the stage has
just been overwritten by the single write of that very call. -/
lemma fillLoop_eq_map (centerX centerY planeWidth planeHeight : ℚ)
    (windowWidth windowHeight numIterations : ℤ) (C : Cplx) :
    ∀ (pixels : List (ℤ × ℤ)) (stage : ℤ),
      fillLoop centerX centerY planeWidth planeHeight windowWidth windowHeight
        numIterations C pixels stage =
        pixels.map (fun p => (p.1, p.2,
          pixelColor centerX centerY planeWidth planeHeight windowWidth
            windowHeight numIterations C p.1 p.2)) := by
  intro pixels
  induction pixels with
  | nil => intro stage; rfl
  | cons p rest ih =>
    intro stage
    obtain ⟨x, y⟩ := p
    rw [fillLoop_cons, List.map_cons, ih]
    rcases isInJuliaSet_cases
        ⟨XTransform x centerX planeWidth windowWidth,
         YTransform y centerY planeHeight windowHeight⟩ C numIterations with
      h | ⟨s, hs⟩
    · rw [h]
      simp [pixelColor, h, stageAfter]
    · rw [hs]
      simp [pixelColor, hs, stageAfter]

/-- Canonical form of a worker's write list: one entry per visited column
and row, carrying the pure per-pixel color. -/
lemma fillJuliaSet_eq_flatMap (centerX centerY planeWidth planeHeight : ℚ)
    (windowWidth windowHeight numIterations : ℤ) (C : Cplx)
    (numberOfThreads threadID : ℤ) :
    fillJuliaSet centerX centerY planeWidth planeHeight windowWidth
      windowHeight numIterations C numberOfThreads threadID =
      (colsFrom threadID windowWidth numberOfThreads
        windowWidth.toNat).flatMap
        (fun c => (List.range windowHeight.toNat).map
          (fun yy => (c, ((yy : ℕ) : ℤ),
            pixelColor centerX centerY planeWidth planeHeight windowWidth
              windowHeight numIterations C c ((yy : ℕ) : ℤ)))) := by
  rw [fillJuliaSet, fillLoop_eq_map, pixelList, List.map_flatMap]
  congr 1
  funext c
  rw [List.map_map]
  rfl

/-- Counting the writes to one cell in a column-organized write list. -/
lemma countP_flatMap_cell (g : ℤ → ℤ → Color) (m : ℕ) (x y : ℤ) :
    ∀ cols : List ℤ,
      ((cols.flatMap (fun c => (List.range m).map
          (fun (yy : ℕ) => (c, (yy : ℤ), g c (yy : ℤ))))).countP
        (fun w => w.1 == x && w.2.1 == y)) =
      cols.count x * (if 0 ≤ y ∧ y < (m : ℤ) then 1 else 0) := by
  intro cols
  induction cols with
  | nil => simp
  | cons c cs ih =>
    rw [List.flatMap_cons, List.countP_append, ih, List.countP_map]
    by_cases hc : c = x
    · subst hc
      have hpred : ((fun w => w.1 == c && w.2.1 == y) ∘
          (fun (yy : ℕ) => ((c : ℤ), (yy : ℤ), g c (yy : ℤ)))) =
          (fun (yy : ℕ) => ((yy : ℕ) : ℤ) == y) := by
        funext yy
        simp [Function.comp]
      rw [hpred, countP_range_intEq, List.count_cons_self]
      ring
    · have hpred : ((fun w => w.1 == x && w.2.1 == y) ∘
          (fun (yy : ℕ) => ((c : ℤ), (yy : ℤ), g c (yy : ℤ)))) =
          (fun (_ : ℕ) => false) := by
        funext yy
        simp only [Function.comp_apply]
        rw [beq_eq_false_iff_ne.mpr hc]
        exact Bool.false_and ((yy : ℤ) == y)
      rw [hpred, List.count_cons_of_ne (fun he => hc he.symm)]
      simp

/-- A nonnegative column x below no bound belongs to worker tid of n exactly
when x is congruent to tid modulo n, for 0 <= tid < n. -/
lemma emod_col_characterization (n tid x : ℤ) (hn : 1 ≤ n) (htid0 : 0 ≤ tid)
    (htidn : tid < n) (hx : 0 ≤ x) :
    (tid ≤ x ∧ n ∣ x - tid) ↔ x % n = tid := by
  constructor
  · rintro ⟨hle, hdvd⟩
    have h0 : (x - tid) % n = 0 := Int.emod_eq_zero_of_dvd hdvd
    have h1 : x % n = tid % n := Int.emod_eq_emod_iff_emod_sub_eq_zero.mpr h0
    rw [h1, Int.emod_eq_of_lt htid0 htidn]
  · intro hmod
    have hdiv0 : 0 ≤ x / n := Int.ediv_nonneg hx (by omega)
    have hid : n * (x / n) + x % n = x := Int.ediv_add_emod x n
    have hnn : 0 ≤ n * (x / n) := mul_nonneg (by omega) hdiv0
    have hid2 : n * (x / n) + tid = x := by
      rw [← hmod]
      exact hid
    exact ⟨by linarith, ⟨x / n, by linarith⟩⟩

/-- The number of writes worker tid performs on cell (x, y): one if the
cell is in range and x mod n picks tid, zero otherwise. -/
lemma countP_fillJuliaSet_cell (centerX centerY planeWidth planeHeight : ℚ)
    (windowWidth windowHeight numIterations : ℤ) (C : Cplx)
    (numberOfThreads tid x y : ℤ) (hn : 1 ≤ numberOfThreads)
    (htid0 : 0 ≤ tid) (htidn : tid < numberOfThreads)
    (hx0 : 0 ≤ x) (hxW : x < windowWidth) (hy0 : 0 ≤ y)
    (hyH : y < windowHeight) :
    (fillJuliaSet centerX centerY planeWidth planeHeight windowWidth
        windowHeight numIterations C numberOfThreads tid).countP
        (fun w => w.1 == x && w.2.1 == y) =
      if x % numberOfThreads = tid then 1 else 0 := by
  rw [fillJuliaSet_eq_flatMap, countP_flatMap_cell,
    count_colsFrom numberOfThreads hn windowWidth.toNat tid windowWidth x
      (by omega),
    if_pos (⟨hy0, by omega⟩ : 0 ≤ y ∧ y < ((windowHeight.toNat : ℕ) : ℤ)),
    mul_one]
  by_cases hcond : x % numberOfThreads = tid
  · have hchar := (emod_col_characterization numberOfThreads tid x hn htid0
      htidn hx0).mpr hcond
    rw [if_pos hcond, if_pos ⟨hchar.1, hxW, hchar.2⟩]
  · rw [if_neg hcond, if_neg]
    intro hc
    exact hcond ((emod_col_characterization numberOfThreads tid x hn htid0
      htidn hx0).mp ⟨hc.1, hc.2.2⟩)

/-- Partial sums of the per-worker cell counts over the first m workers. -/
lemma countP_allWrites_cell_aux (centerX centerY planeWidth planeHeight : ℚ)
    (windowWidth windowHeight numIterations : ℤ) (C : Cplx)
    (numberOfThreads x y : ℤ) (hn : 1 ≤ numberOfThreads)
    (hx0 : 0 ≤ x) (hxW : x < windowWidth) (hy0 : 0 ≤ y)
    (hyH : y < windowHeight) :
    ∀ m : ℕ, (m : ℤ) ≤ numberOfThreads →
      ((List.range m).flatMap (fun threadID =>
          fillJuliaSet centerX centerY planeWidth planeHeight windowWidth
            windowHeight numIterations C numberOfThreads
            ((threadID : ℕ) : ℤ))).countP
          (fun w => w.1 == x && w.2.1 == y) =
        if 0 ≤ x % numberOfThreads ∧ x % numberOfThreads < (m : ℤ) then 1
        else 0 := by
  intro m
  induction m with
  | zero =>
    intro _
    rw [List.range_zero, List.flatMap_nil, List.countP_nil, if_neg]
    rintro ⟨h1, h2⟩
    push_cast at h2
    omega
  | succ k ih =>
    intro hm
    rw [List.range_succ, List.flatMap_append, List.countP_append,
      ih (by push_cast at hm ⊢; omega), List.flatMap_cons, List.flatMap_nil,
      List.append_nil,
      countP_fillJuliaSet_cell centerX centerY planeWidth planeHeight
        windowWidth windowHeight numIterations C numberOfThreads
        ((k : ℕ) : ℤ) x y hn (by positivity) (by push_cast at hm ⊢; omega)
        hx0 hxW hy0 hyH]
    push_cast
    split_ifs <;> omega

/-- Every in-range cell is written exactly once across all workers. -/
lemma countP_allWrites_cell (centerX centerY planeWidth planeHeight : ℚ)
    (windowWidth windowHeight numIterations : ℤ) (C : Cplx)
    (numberOfThreads x y : ℤ) (hn : 1 ≤ numberOfThreads)
    (hx0 : 0 ≤ x) (hxW : x < windowWidth) (hy0 : 0 ≤ y)
    (hyH : y < windowHeight) :
    (allWrites centerX centerY planeWidth planeHeight windowWidth
        windowHeight numIterations C numberOfThreads).countP
      (fun w => w.1 == x && w.2.1 == y) = 1 := by
  rw [allWrites, countP_allWrites_cell_aux centerX centerY planeWidth
    planeHeight windowWidth windowHeight numIterations C numberOfThreads x y
    hn hx0 hxW hy0 hyH numberOfThreads.toNat (by omega), if_pos]
  refine ⟨Int.emod_nonneg x (by omega), ?_⟩
  have := Int.emod_lt_of_pos x (show 0 < numberOfThreads by omega)
  omega

/-- Every entry of the combined write list carries the pure per-pixel color
of its own cell. -/
lemma mem_allWrites_color (centerX centerY planeWidth planeHeight : ℚ)
    (windowWidth windowHeight numIterations : ℤ) (C : Cplx)
    (numberOfThreads : ℤ) (w : ℤ × ℤ × Color)
    (hw : w ∈ allWrites centerX centerY planeWidth planeHeight windowWidth
      windowHeight numIterations C numberOfThreads) :
    w.2.2 = pixelColor centerX centerY planeWidth planeHeight windowWidth
      windowHeight numIterations C w.1 w.2.1 := by
  rw [allWrites, List.mem_flatMap] at hw
  obtain ⟨tid, _, hw2⟩ := hw
  rw [fillJuliaSet_eq_flatMap, List.mem_flatMap] at hw2
  obtain ⟨c, _, hw3⟩ := hw2
  rw [List.mem_map] at hw3
  obtain ⟨yy, _, rfl⟩ := hw3
  rfl

/-- The grid cell (x, y) of an in-range pixel holds exactly the pure
per-pixel color after a fill with any positive worker count. -/
lemma gridAt_eq_pixelColor (centerX centerY planeWidth planeHeight : ℚ)
    (windowWidth windowHeight numIterations : ℤ) (C : Cplx)
    (numberOfThreads x y : ℤ) (hn : 1 ≤ numberOfThreads)
    (hx0 : 0 ≤ x) (hxW : x < windowWidth) (hy0 : 0 ≤ y)
    (hyH : y < windowHeight) :
    gridAt centerX centerY planeWidth planeHeight windowWidth windowHeight
        numIterations C numberOfThreads x y =
      some (pixelColor centerX centerY planeWidth planeHeight windowWidth
        windowHeight numIterations C x y) := by
  have hcount := countP_allWrites_cell centerX centerY planeWidth planeHeight
    windowWidth windowHeight numIterations C numberOfThreads x y hn hx0 hxW
    hy0 hyH
  have hex : ∃ w ∈ allWrites centerX centerY planeWidth planeHeight
      windowWidth windowHeight numIterations C numberOfThreads,
      (w.1 == x && w.2.1 == y) = true := by
    refine List.countP_pos_iff.mp ?_
    rw [hcount]
    norm_num
  have hsome : ((allWrites centerX centerY planeWidth planeHeight windowWidth
      windowHeight numIterations C numberOfThreads).find?
      (fun w => w.1 == x && w.2.1 == y)).isSome := by
    rw [List.find?_isSome]
    obtain ⟨w, hw, hpw⟩ := hex
    exact ⟨w, hw, hpw⟩
  obtain ⟨w, hw⟩ := Option.isSome_iff_exists.mp hsome
  have hpw := List.find?_some hw
  have hmem := List.mem_of_find?_eq_some hw
  simp only [Bool.and_eq_true, beq_iff_eq] at hpw
  have hcolor := mem_allWrites_color centerX centerY planeWidth planeHeight
    windowWidth windowHeight numIterations C numberOfThreads w hmem
  rw [gridAt, hw]
  simp only [Option.map_some']
  rw [hcolor, hpw.1, hpw.2]

/-- C2: for a fixed viewport, constant and iteration bound, the output grid
produced with 1 worker is cell-for-cell identical to the grid produced with
any worker count n >= 1, each worker w in [0, n) executing fillJuliaSet with
threadID = w. -/
theorem fill_determinism_across_worker_counts
    (centerX centerY planeWidth planeHeight : ℚ)
    (windowWidth windowHeight numIterations : ℤ) (C : Cplx)
    (numberOfThreads x y : ℤ) (hn : 1 ≤ numberOfThreads)
    (hx0 : 0 ≤ x) (hxW : x < windowWidth) (hy0 : 0 ≤ y)
    (hyH : y < windowHeight) :
    gridAt centerX centerY planeWidth planeHeight windowWidth windowHeight
        numIterations C 1 x y =
      gridAt centerX centerY planeWidth planeHeight windowWidth windowHeight
        numIterations C numberOfThreads x y := by
  rw [gridAt_eq_pixelColor centerX centerY planeWidth planeHeight windowWidth
      windowHeight numIterations C 1 x y (le_refl 1) hx0 hxW hy0 hyH,
    gridAt_eq_pixelColor centerX centerY planeWidth planeHeight windowWidth
      windowHeight numIterations C numberOfThreads x y hn hx0 hxW hy0 hyH]

/-- Witness for C2 on a 1 x 1 window with plane extents 2 x 2 centered at
the origin, C = 0, one iteration, comparing 1 worker against 2 workers. -/
theorem fill_determinism_across_worker_counts_witness :
    (1 : ℤ) ≤ 2 ∧ (0 : ℤ) ≤ 0 ∧ (0 : ℤ) < 1 ∧
    gridAt 0 0 2 2 1 1 1 ⟨0, 0⟩ 1 0 0 = gridAt 0 0 2 2 1 1 1 ⟨0, 0⟩ 2 0 0 :=
  ⟨by norm_num, le_refl 0, by norm_num,
   fill_determinism_across_worker_counts 0 0 2 2 1 1 1 ⟨0, 0⟩ 2 0 0
     (by norm_num) (le_refl 0) (by norm_num) (le_refl 0) (by norm_num)⟩

/-- C3: in a fill with n >= 1 workers over a grid of positive dimensions,
every in-range cell (x, y) is written exactly once in total, and the worker
with index tid writes it exactly once when tid = x mod n and not at all
otherwise; moreover every write of worker tid goes to an in-range cell whose
column is congruent to tid, so distinct workers have disjoint write sets and
a worker whose index matches no column writes nothing. -/
theorem fill_partition_coverage
    (centerX centerY planeWidth planeHeight : ℚ)
    (windowWidth windowHeight numIterations : ℤ) (C : Cplx)
    (numberOfThreads tid x y : ℤ) (hn : 1 ≤ numberOfThreads)
    (hW : 0 < windowWidth) (hH : 0 < windowHeight)
    (htid0 : 0 ≤ tid) (htidn : tid < numberOfThreads)
    (hx0 : 0 ≤ x) (hxW : x < windowWidth) (hy0 : 0 ≤ y)
    (hyH : y < windowHeight) :
    (fillJuliaSet centerX centerY planeWidth planeHeight windowWidth
        windowHeight numIterations C numberOfThreads tid).countP
        (fun w => w.1 == x && w.2.1 == y) =
      (if x % numberOfThreads = tid then 1 else 0) ∧
    (allWrites centerX centerY planeWidth planeHeight windowWidth
        windowHeight numIterations C numberOfThreads).countP
      (fun w => w.1 == x && w.2.1 == y) = 1 ∧
    (fillJuliaSet centerX centerY planeWidth planeHeight windowWidth
        windowHeight numIterations C numberOfThreads tid).all
      (fun w => decide (0 ≤ w.1) && decide (w.1 < windowWidth) &&
        decide (0 ≤ w.2.1) && decide (w.2.1 < windowHeight) &&
        (w.1 % numberOfThreads == tid)) = true := by
  refine ⟨countP_fillJuliaSet_cell centerX centerY planeWidth planeHeight
      windowWidth windowHeight numIterations C numberOfThreads tid x y hn
      htid0 htidn hx0 hxW hy0 hyH,
    countP_allWrites_cell centerX centerY planeWidth planeHeight windowWidth
      windowHeight numIterations C numberOfThreads x y hn hx0 hxW hy0 hyH,
    ?_⟩
  rw [List.all_eq_true]
  intro w hw
  rw [fillJuliaSet_eq_flatMap, List.mem_flatMap] at hw
  obtain ⟨c, hc, hw2⟩ := hw
  rw [List.mem_map] at hw2
  obtain ⟨yy, hyy, rfl⟩ := hw2
  rw [mem_colsFrom numberOfThreads hn windowWidth.toNat tid windowWidth c
    (by omega)] at hc
  obtain ⟨h1, h2, h3⟩ := hc
  have hmod : c % numberOfThreads = tid :=
    (emod_col_characterization numberOfThreads tid c hn htid0 htidn
      (by omega)).mp ⟨h1, h3⟩
  rw [List.mem_range] at hyy
  simp only [Bool.and_eq_true, decide_eq_true_eq, beq_iff_eq]
  exact ⟨⟨⟨⟨by omega, h2⟩, by positivity⟩, by omega⟩, hmod⟩

/-- Witness for C3 on a 1 x 1 window with 2 workers: cell (0, 0) is written
once in total, worker 1 (whose index matches no column) writes it zero
times since 0 mod 2 is not 1, and all of worker 1's writes (there are none)
are in range on matching columns. -/
theorem fill_partition_coverage_witness :
    (1 : ℤ) ≤ 2 ∧ (0 : ℤ) < 1 ∧ (0 : ℤ) ≤ 1 ∧ (1 : ℤ) < 2 ∧
    ((fillJuliaSet 0 0 2 2 1 1 1 ⟨0, 0⟩ 2 1).countP
        (fun w => w.1 == (0 : ℤ) && w.2.1 == (0 : ℤ)) =
      (if (0 : ℤ) % 2 = 1 then 1 else 0) ∧
    (allWrites 0 0 2 2 1 1 1 ⟨0, 0⟩ 2).countP
      (fun w => w.1 == (0 : ℤ) && w.2.1 == (0 : ℤ)) = 1 ∧
    (fillJuliaSet 0 0 2 2 1 1 1 ⟨0, 0⟩ 2 1).all
      (fun w => decide (0 ≤ w.1) && decide (w.1 < 1) &&
        decide (0 ≤ w.2.1) && decide (w.2.1 < 1) && (w.1 % 2 == 1)) =
      true) :=
  ⟨by norm_num, by norm_num, by norm_num, by norm_num,
   fill_partition_coverage 0 0 2 2 1 1 1 ⟨0, 0⟩ 2 1 0 0 (by norm_num)
     (by norm_num) (by norm_num) (by norm_num) (by norm_num) (le_refl 0)
     (by norm_num) (le_refl 0) (by norm_num)⟩
